import Mathlib

/-
Verification of the rand_design capability/derivation layer.

The development shallowly embeds the Rust sources:
  * src/traits/marker_only.rs          (namespace MarkerOnly)
  * src/traits/separate_explicit_Rng.rs (namespace SeparateExplicit)

Machine integers are modelled as Nat; u64 values are reduced modulo 2^64
where the code truncates.  A generator with state type sigma is modelled by
its primitive as a state-passing function.  Rust panics are modelled as the
none branch of an Option result.  Host byte order is modelled by a Bool
parameter be (true = big-endian host), so that u64::to_le and the raw
byte reinterpretations in the source are faithful on either host.
-/

namespace MarkerOnly

/-- Embeds pub struct Error of marker_only.rs. -/
inductive Error : Type where
  | mk
  deriving DecidableEq

/-- Little-endian byte serialization of a u64 value: byte i is
bits 8i..8i+7.  Numerals are powers of 256 written out because the
arithmetic automation works on literals. -/
def leBytes64 (x : Nat) : List Nat :=
  [x % 256, x / 256 % 256, x / 65536 % 256, x / 16777216 % 256,
   x / 4294967296 % 256, x / 1099511627776 % 256,
   x / 281474976710656 % 256, x / 72057594037927936 % 256]

/-- Value of a byte list read as a little-endian integer. -/
def fromLEBytes : List Nat → Nat
  | [] => 0
  | b :: bs => b + 256 * fromLEBytes bs

/-- Byte swap of a u64, used to model u64::to_le on a big-endian host. -/
def bswap64 (x : Nat) : Nat := fromLEBytes (leBytes64 x).reverse

/-- Embeds u64::to_le; be is true on a big-endian host. -/
def to_le (be : Bool) (x : Nat) : Nat := if be then bswap64 x else x

/-- Raw in-memory bytes of a stored u64 on a host of endianness be. -/
def memBytes (be : Bool) (x : Nat) : List Nat :=
  if be then (leBytes64 x).reverse else leBytes64 x

/-- Raw load of 8 memory bytes as a u64 on a host of endianness be. -/
def load64 (be : Bool) (l : List Nat) : Nat :=
  if be then fromLEBytes l.reverse else fromLEBytes l

theorem leBytes64_length (x : Nat) : (leBytes64 x).length = 8 := rfl

theorem mem_leBytes64_lt (x : Nat) : ∀ b ∈ leBytes64 x, b < 256 := by
  intro b hb
  simp only [leBytes64, List.mem_cons, List.not_mem_nil, or_false] at hb
  rcases hb with h | h | h | h | h | h | h | h <;> subst h <;> omega

theorem leBytes64_fromLEBytes :
    ∀ l : List Nat, l.length = 8 → (∀ b ∈ l, b < 256) →
      leBytes64 (fromLEBytes l) = l := by
  intro l h8 hb
  rcases l with _ | ⟨b0, _ | ⟨b1, _ | ⟨b2, _ | ⟨b3, _ | ⟨b4, _ | ⟨b5, _ |
    ⟨b6, _ | ⟨b7, _ | ⟨b8, l⟩⟩⟩⟩⟩⟩⟩⟩⟩ <;>
    first
    | (exfalso; simp only [List.length_cons, List.length_nil] at h8; omega)
    | skip
  simp only [List.mem_cons, List.not_mem_nil, or_false] at hb
  have h0 : b0 < 256 := hb b0 (by tauto)
  have h1 : b1 < 256 := hb b1 (by tauto)
  have h2 : b2 < 256 := hb b2 (by tauto)
  have h3 : b3 < 256 := hb b3 (by tauto)
  have h4 : b4 < 256 := hb b4 (by tauto)
  have h5 : b5 < 256 := hb b5 (by tauto)
  have h6 : b6 < 256 := hb b6 (by tauto)
  have h7 : b7 < 256 := hb b7 (by tauto)
  simp only [leBytes64, fromLEBytes, List.cons.injEq, and_true]
  refine ⟨?_, ?_, ?_, ?_, ?_, ?_, ?_, ?_⟩ <;> omega

theorem fromLEBytes_leBytes64 (x : Nat) :
    fromLEBytes (leBytes64 x) = x % 18446744073709551616 := by
  simp only [leBytes64, fromLEBytes]
  omega

theorem memBytes_to_le (be : Bool) (x : Nat) :
    memBytes be (to_le be x) = leBytes64 x := by
  cases be with
  | false => rfl
  | true =>
    simp only [memBytes, to_le, bswap64, if_pos]
    rw [leBytes64_fromLEBytes]
    · exact List.reverse_reverse _
    · simp [leBytes64_length]
    · intro b hb
      exact mem_leBytes64_lt x b (List.mem_reverse.mp hb)

theorem to_le_load64_leBytes (be : Bool) (x : Nat) :
    to_le be (load64 be (leBytes64 x)) = x % 18446744073709551616 := by
  cases be with
  | false =>
    simp only [to_le, load64, if_neg]
    exact fromLEBytes_leBytes64 x
  | true =>
    simp only [to_le, load64, if_pos, bswap64]
    rw [leBytes64_fromLEBytes]
    · rw [List.reverse_reverse]
      exact fromLEBytes_leBytes64 x
    · simp [leBytes64_length]
    · intro b hb
      exact mem_leBytes64_lt x b (List.mem_reverse.mp hb)

/-- Embeds std::ptr::copy_nonoverlapping as used by impl_fill_from_u64:
copies n bytes from src starting at srcOff into dst starting at dstOff,
one byte at a time, with every access bounds-checked; none models an
out-of-bounds access (undefined behaviour in the source). -/
def copy_nonoverlapping (src : List Nat) (srcOff : Nat) (dst : List Nat)
    (dstOff : Nat) : Nat → Option (List Nat)
  | 0 => some dst
  | n + 1 =>
    match src[srcOff]? with
    | none => none
    | some b =>
      if dstOff < dst.length then
        copy_nonoverlapping src (srcOff + 1) (dst.set dstOff b) (dstOff + 1) n
      else none

/-- The while loop of impl_fill_from_u64: len is the count of bytes still
to fill, p the current write offset into dest (the source advances a raw
pointer; the offset from the start of dest is equivalent).  Each iteration
draws one word, converts it with to_le, and copies min(len, 8) raw bytes
of the stored word into dest. -/
def fill_loop {σ : Type} (be : Bool) (next : σ → Nat × σ) (len : Nat)
    (s : σ) (dest : List Nat) (p : Nat) : Option (List Nat × σ) :=
  if len = 0 then some (dest, s)
  else
    match copy_nonoverlapping (memBytes be (to_le be (next s).1)) 0 dest p
        (min len 8) with
    | none => none
    | some dest' =>
      fill_loop be next (len - min len 8) (next s).2 dest' (p + min len 8)
termination_by len
decreasing_by omega

/-- Embeds pub fn impl_fill_from_u64 of marker_only.rs.  The function
first takes a pointer to dest[0]; on an empty slice that indexing
operation panics (none branch), before any word is drawn. -/
def impl_fill_from_u64 {σ : Type} (be : Bool) (next : σ → Nat × σ)
    (s : σ) (dest : List Nat) : Option (List Nat × σ) :=
  if dest.length = 0 then none
  else fill_loop be next dest.length s dest 0

/-- Specification-side helper: the words produced by k successive
next_u64 draws, together with the final generator state. -/
def draw_words {σ : Type} (next : σ → Nat × σ) : Nat → σ → List Nat × σ
  | 0, s => ([], s)
  | k + 1, s =>
    let x := (next s).1
    let r := draw_words next k (next s).2
    (x :: r.1, r.2)

/-- Specification-side helper: concatenation of the little-endian
serializations of a list of words. -/
def bytes_of_words : List Nat → List Nat
  | [] => []
  | w :: ws => leBytes64 w ++ bytes_of_words ws

/-- ceil(L / 8), the number of word draws the derivation performs. -/
def ceilDiv8 (L : Nat) : Nat := (L + 7) / 8

/-- Embeds the test double TestRng of marker_only.rs: next_u64 returns
the stored field and leaves the state unchanged. -/
def TestRng_next_u64 : Nat → Nat × Nat := fun s => (s, s)

theorem take_succ_set (l : List Nat) :
    ∀ i b, i < l.length → (l.set i b).take (i + 1) = l.take i ++ [b] := by
  induction l with
  | nil => intro i b h; simp at h
  | cons a l ih =>
    intro i b h
    cases i with
    | zero => simp
    | succ i =>
      simp only [List.set_cons_succ, List.take_succ_cons]
      rw [ih i b (by simpa using h)]
      simp

theorem copy_nonoverlapping_eq (src : List Nat) :
    ∀ (n srcOff dstOff : Nat) (dst : List Nat),
      srcOff + n ≤ src.length → dstOff + n ≤ dst.length →
      copy_nonoverlapping src srcOff dst dstOff n =
        some (dst.take dstOff ++ (src.drop srcOff).take n
          ++ dst.drop (dstOff + n)) := by
  intro n
  induction n with
  | zero =>
    intro srcOff dstOff dst hs hd
    simp [copy_nonoverlapping]
  | succ n ih =>
    intro srcOff dstOff dst hs hd
    have hsrc : srcOff < src.length := by omega
    have hdst : dstOff < dst.length := by omega
    rw [copy_nonoverlapping, List.getElem?_eq_getElem hsrc]
    dsimp only
    rw [if_pos hdst,
      ih (srcOff + 1) (dstOff + 1) (dst.set dstOff src[srcOff])
        (by omega) (by simp; omega)]
    rw [take_succ_set dst dstOff src[srcOff] hdst,
      List.drop_set, if_pos (by omega : dstOff < dstOff + 1 + n),
      List.drop_eq_getElem_cons hsrc, List.take_succ_cons]
    have harith : dstOff + 1 + n = dstOff + (n + 1) := by omega
    rw [harith]
    simp [List.append_assoc]

theorem take_append_append {A B C : List Nat} {a b : Nat}
    (ha : A.length = a) (hb : B.length = b) :
    (A ++ (B ++ C)).take (a + b) = A ++ B := by
  subst ha hb
  rw [List.take_append_eq_append_take, List.take_of_length_le (Nat.le_add_right _ _),
    Nat.add_sub_cancel_left, List.take_append_eq_append_take,
    List.take_of_length_le (Nat.le_refl _), Nat.sub_self, List.take_zero,
    List.append_nil]

/-- Determinism of the while loop of impl_fill_from_u64: with len bytes
still to fill and write offset p into dest, the loop succeeds and the
bytes written are the first len bytes of the concatenated little-endian
serializations of ceil(len/8) successive draws, on either host byte
order. -/
theorem fill_loop_eq {σ : Type} (be : Bool) (next : σ → Nat × σ) :
    ∀ (len : Nat) (s : σ) (dest : List Nat) (p : Nat),
      p + len = dest.length →
      fill_loop be next len s dest p =
        some (dest.take p
            ++ (bytes_of_words (draw_words next (ceilDiv8 len) s).1).take len,
          (draw_words next (ceilDiv8 len) s).2) := by
  intro len
  induction len using Nat.strong_induction_on with
  | _ len ih =>
    intro s dest p hp
    by_cases h0 : len = 0
    · subst h0
      have hdp : dest.take p = dest := List.take_of_length_le (by omega)
      rw [fill_loop]
      norm_num [ceilDiv8, draw_words, bytes_of_words, hdp]
    · rw [fill_loop, if_neg h0, memBytes_to_le,
        copy_nonoverlapping_eq (leBytes64 (next s).1) (min len 8) 0 p dest
          (by rw [leBytes64_length]; omega) (by omega)]
      dsimp only
      rw [List.drop_zero]
      have hlen' : (dest.take p ++ (leBytes64 (next s).1).take (min len 8)
          ++ dest.drop (p + min len 8)).length = dest.length := by
        simp [leBytes64_length]
        omega
      rw [ih (len - min len 8) (by omega) (next s).2 _ (p + min len 8)
        (by rw [hlen']; omega)]
      have hceil : ceilDiv8 len = ceilDiv8 (len - min len 8) + 1 := by
        simp only [ceilDiv8]; omega
      rw [hceil]
      simp only [draw_words, bytes_of_words]
      rw [List.append_assoc (dest.take p)]
      rw [take_append_append
        (by simp; omega : (dest.take p).length = p)
        (by simp [leBytes64_length] :
          ((leBytes64 (next s).1).take (min len 8)).length = min len 8)]
      rw [List.take_append_eq_append_take, leBytes64_length]
      rcases Nat.lt_or_ge len 8 with hlt | hge
      · have hmin : min len 8 = len := by omega
        have h8 : len - 8 = 0 := by omega
        rw [hmin, h8]
        simp [List.append_assoc]
      · have hmin : min len 8 = 8 := by omega
        rw [hmin, List.take_of_length_le
          (show (leBytes64 (next s).1).length ≤ len by rw [leBytes64_length]; omega)]
        simp [List.append_assoc]
        exact Nat.le_of_eq (leBytes64_length _)

/-- Top-level specification of impl_fill_from_u64 on a non-empty
destination: it succeeds, and the destination contents afterwards are the
first L bytes of the concatenated little-endian serializations of
ceil(L/8) successive draws. -/
theorem impl_fill_from_u64_spec {σ : Type} (be : Bool) (next : σ → Nat × σ)
    (s : σ) (dest : List Nat) (h : 1 ≤ dest.length) :
    impl_fill_from_u64 be next s dest =
      some ((bytes_of_words
          (draw_words next (ceilDiv8 dest.length) s).1).take dest.length,
        (draw_words next (ceilDiv8 dest.length) s).2) := by
  rw [impl_fill_from_u64, if_neg (by omega)]
  rw [fill_loop_eq be next dest.length s dest 0 (by omega)]
  simp

theorem draw_words_length {σ : Type} (next : σ → Nat × σ) :
    ∀ (k : Nat) (s : σ), ((draw_words next k s).1).length = k := by
  intro k
  induction k with
  | zero => intro s; rfl
  | succ k ih => intro s; simp [draw_words, ih]

theorem bytes_of_words_length :
    ∀ ws : List Nat, (bytes_of_words ws).length = 8 * ws.length := by
  intro ws
  induction ws with
  | nil => rfl
  | cons w ws ih => simp [bytes_of_words, ih, leBytes64_length]; omega

/-- Instrumentation for counting draws: any generator paired with a draw
counter that every call increments. -/
def count_next {σ : Type} (next : σ → Nat × σ) : σ × Nat → Nat × (σ × Nat) :=
  fun sc => ((next sc.1).1, ((next sc.1).2, sc.2 + 1))

theorem draw_words_count_next {σ : Type} (next : σ → Nat × σ) :
    ∀ (k : Nat) (s : σ) (c : Nat),
      (draw_words (count_next next) k (s, c)).2 = ((draw_words next k s).2, c + k) := by
  intro k
  induction k with
  | zero => intro s c; rfl
  | succ k ih =>
    intro s c
    simp only [draw_words, count_next]
    rw [ih]
    congr 1
    omega

/-- Embeds pub fn impl_next_u64_from_fill (with the impl_uint_from_fill
macro body) for a generator whose fill method is impl_fill_from_u64: an
8-byte zeroed buffer is filled, reinterpreted by a raw native-endian load
of a u64, and converted with to_le; a panic inside fill propagates. -/
def impl_next_u64_from_fill {σ : Type} (be : Bool) (next : σ → Nat × σ)
    (s : σ) : Option (Nat × σ) :=
  match impl_fill_from_u64 be next s (List.replicate 8 0) with
  | none => none
  | some (buf, s') => some (to_le be (load64 be buf), s')

/-- Embeds the trait Rng of marker_only.rs over a state type: fill may
panic (none); next_u64 is total at this interface.  Concrete impls
override fill; try_fill below is the default method body. -/
structure Rng (σ : Type) where
  fill : σ → List Nat → Option (List Nat × σ)
  next_u64 : σ → Nat × σ

/-- Embeds the default body of Rng::try_fill: self.fill(dest) then
Ok(()).  A panic in fill propagates as a panic (none), never as Err. -/
def Rng.try_fill {σ : Type} (g : Rng σ) (s : σ) (dest : List Nat) :
    Option (Except Error Unit × List Nat × σ) :=
  match g.fill s dest with
  | none => none
  | some (d, s') => some (Except.ok (), d, s')

end MarkerOnly

namespace SeparateExplicit

/-- Embeds struct CryptoError of separate_explicit_Rng.rs. -/
inductive CryptoError : Type where
  | mk
  deriving DecidableEq

/-- Embeds trait CryptoRng over a state type: try_next_u32 returns
Result of u32 or CryptoError while mutating the generator state. -/
structure CryptoRng (σ : Type) where
  try_next_u32 : σ → Except CryptoError Nat × σ

/-- Embeds trait Rng over a state type: next_u32 is total at this
interface. -/
structure Rng (σ : Type) where
  next_u32 : σ → Nat × σ

/-- Embeds struct AsRng, the secure-to-basic bridge, holding the
wrapped generator. -/
structure AsRng (σ : Type) where
  rng : CryptoRng σ

/-- Embeds fn as_rng. -/
def as_rng {σ : Type} (rng : CryptoRng σ) : AsRng σ := ⟨rng⟩

/-- Embeds impl Rng for AsRng of separate_explicit_Rng.rs: next_u32 is
self.rng.try_next_u32().unwrap(); the none branch models the unwrap
panic on Err.  The AsRng impl of extends_CryptoRng2.rs has the same
body. -/
def AsRng.next_u32 {σ : Type} (w : AsRng σ) (s : σ) : Option (Nat × σ) :=
  match w.rng.try_next_u32 s with
  | (Except.ok x, s') => some (x, s')
  | (Except.error _, _) => none

/-- Embeds struct AsCRng, the basic-to-secure bridge. -/
structure AsCRng (σ : Type) where
  rng : Rng σ

/-- Embeds fn as_crng. -/
def as_crng {σ : Type} (rng : Rng σ) : AsCRng σ := ⟨rng⟩

/-- Embeds impl CryptoRng for AsCRng of separate_explicit_Rng.rs:
try_next_u32 is Ok(self.rng.next_u32()).  The AsCRng impl of
extends_Rng.rs has the same body. -/
def AsCRng.try_next_u32 {σ : Type} (w : AsCRng σ) (s : σ) :
    Except CryptoError Nat × σ :=
  (Except.ok (w.rng.next_u32 s).1, (w.rng.next_u32 s).2)

/-- Embeds impl Rng for &mut R, the forwarding impl that a call through
an abstract (dynamically dispatched) Rng reference resolves to. -/
def mut_ref_rng {σ : Type} (r : Rng σ) : Rng σ :=
  ⟨fun s => r.next_u32 s⟩

/-- Embeds impl CryptoRng for &mut CR, the forwarding impl that a call
through an abstract (dynamically dispatched) CryptoRng reference
resolves to. -/
def mut_ref_crng {σ : Type} (cr : CryptoRng σ) : CryptoRng σ :=
  ⟨fun s => cr.try_next_u32 s⟩

/-- Embeds the test double TestRng of separate_explicit_Rng.rs: a fixed
u32, state unchanged. -/
def TestRng : Rng Nat := ⟨fun s => (s, s)⟩

/-- Embeds the test double TestCRng of separate_explicit_Rng.rs: always
Ok of the fixed u32. -/
def TestCRng : CryptoRng Nat := ⟨fun s => (Except.ok s, s)⟩

/-- A secure generator whose try_next_u32 always fails, exercising the
Err path of the bridge (the source files contain no failing generator). -/
def FailCRng : CryptoRng Unit := ⟨fun s => (Except.error CryptoError.mk, s)⟩

end SeparateExplicit

/-- Claim C1: the determinism law of the derived byte-fill.  It holds for
every destination of length at least 1: the bytes written are the first L
bytes of the concatenated little-endian serializations of ceil(L/8)
successive next_u64 draws, on either host byte order.  At L = 0 the code
panics (second conjunct, evaluated at a concrete generator), because it
indexes dest[0] before entering the loop, so the law fails there. -/
theorem claim_C1_fill_determinism :
    (∀ (σ : Type) (be : Bool) (next : σ → Nat × σ) (s : σ) (dest : List Nat),
      1 ≤ dest.length →
      MarkerOnly.impl_fill_from_u64 be next s dest =
        some ((MarkerOnly.bytes_of_words
            (MarkerOnly.draw_words next
              (MarkerOnly.ceilDiv8 dest.length) s).1).take dest.length,
          (MarkerOnly.draw_words next (MarkerOnly.ceilDiv8 dest.length) s).2))
    ∧ MarkerOnly.impl_fill_from_u64 false MarkerOnly.TestRng_next_u64 5 [] = none := by
  constructor
  · intro σ be next s dest h
    exact MarkerOnly.impl_fill_from_u64_spec be next s dest h
  · rfl

/-- Witness for claim C1: a 3-byte destination filled from the constant
generator TestRng(5). -/
theorem claim_C1_witness :
    1 ≤ (List.replicate 3 (0 : Nat)).length ∧
    MarkerOnly.impl_fill_from_u64 false MarkerOnly.TestRng_next_u64 5
        (List.replicate 3 0) =
      some ((MarkerOnly.bytes_of_words
          (MarkerOnly.draw_words MarkerOnly.TestRng_next_u64
            (MarkerOnly.ceilDiv8 (List.replicate 3 (0 : Nat)).length) 5).1).take
          (List.replicate 3 (0 : Nat)).length,
        (MarkerOnly.draw_words MarkerOnly.TestRng_next_u64
          (MarkerOnly.ceilDiv8 (List.replicate 3 (0 : Nat)).length) 5).2) :=
  ⟨by decide, claim_C1_fill_determinism.1 Nat false MarkerOnly.TestRng_next_u64 5
    (List.replicate 3 0) (by decide)⟩

/-- Claim C2: fill writes exactly len(dest) bytes for every non-empty
destination.  At len(dest) = 0 the claim of zero draws and normal return
fails: the code panics on the dest[0] indexing (second conjunct). -/
theorem claim_C2_fill_exact_length :
    (∀ (σ : Type) (be : Bool) (next : σ → Nat × σ) (s : σ) (dest : List Nat),
      1 ≤ dest.length →
      ∃ out s', MarkerOnly.impl_fill_from_u64 be next s dest = some (out, s') ∧
        out.length = dest.length)
    ∧ MarkerOnly.impl_fill_from_u64 false MarkerOnly.TestRng_next_u64 6 [] = none := by
  constructor
  · intro σ be next s dest h
    refine ⟨_, _, MarkerOnly.impl_fill_from_u64_spec be next s dest h, ?_⟩
    rw [List.length_take, MarkerOnly.bytes_of_words_length,
      MarkerOnly.draw_words_length]
    simp only [MarkerOnly.ceilDiv8]
    omega
  · rfl

/-- Witness for claim C2: a 12-byte destination filled from TestRng(6). -/
theorem claim_C2_witness :
    1 ≤ (List.replicate 12 (0 : Nat)).length ∧
    ∃ out s', MarkerOnly.impl_fill_from_u64 false MarkerOnly.TestRng_next_u64 6
        (List.replicate 12 0) = some (out, s') ∧
      out.length = (List.replicate 12 (0 : Nat)).length :=
  ⟨by decide, claim_C2_fill_exact_length.1 Nat false MarkerOnly.TestRng_next_u64 6
    (List.replicate 12 0) (by decide)⟩

/-- Claim C3: every byte copy of the loop stays inside the 8 bytes of the
serialized word and inside the L bytes of the destination, so the checked
embedding never reaches its error branch when L is at least 1; at L = 0
the error branch is reached (second conjunct): the code indexes dest[0]
on an empty slice before the loop. -/
theorem claim_C3_fill_in_bounds :
    (∀ (σ : Type) (be : Bool) (next : σ → Nat × σ) (s : σ) (dest : List Nat),
      1 ≤ dest.length →
      (MarkerOnly.impl_fill_from_u64 be next s dest).isSome = true)
    ∧ MarkerOnly.impl_fill_from_u64 false MarkerOnly.TestRng_next_u64 7 [] = none := by
  constructor
  · intro σ be next s dest h
    rw [MarkerOnly.impl_fill_from_u64_spec be next s dest h]
    rfl
  · rfl

/-- Witness for claim C3: a 9-byte destination filled from TestRng(7). -/
theorem claim_C3_witness :
    1 ≤ (List.replicate 9 (0 : Nat)).length ∧
    (MarkerOnly.impl_fill_from_u64 false MarkerOnly.TestRng_next_u64 7
      (List.replicate 9 0)).isSome = true :=
  ⟨by decide, claim_C3_fill_in_bounds.1 Nat false MarkerOnly.TestRng_next_u64 7
    (List.replicate 9 0) (by decide)⟩

/-- Claim C4: for every non-empty destination the loop terminates after
exactly ceil(L/8) draws, counted by instrumenting the generator with a
draw counter; at L = 0 the function panics on the dest[0] indexing before
the loop (second conjunct) instead of returning normally after zero
draws. -/
theorem claim_C4_draw_count :
    (∀ (σ : Type) (be : Bool) (next : σ → Nat × σ) (s : σ) (dest : List Nat),
      1 ≤ dest.length →
      ∃ out s', MarkerOnly.impl_fill_from_u64 be (MarkerOnly.count_next next)
          (s, 0) dest =
        some (out, (s', MarkerOnly.ceilDiv8 dest.length)))
    ∧ MarkerOnly.impl_fill_from_u64 false
        (MarkerOnly.count_next MarkerOnly.TestRng_next_u64) (8, 0) [] = none := by
  constructor
  · intro σ be next s dest h
    refine ⟨(MarkerOnly.bytes_of_words
        (MarkerOnly.draw_words (MarkerOnly.count_next next)
          (MarkerOnly.ceilDiv8 dest.length) (s, 0)).1).take dest.length,
      (MarkerOnly.draw_words next (MarkerOnly.ceilDiv8 dest.length) s).2, ?_⟩
    rw [MarkerOnly.impl_fill_from_u64_spec be (MarkerOnly.count_next next) (s, 0) dest h,
      MarkerOnly.draw_words_count_next next (MarkerOnly.ceilDiv8 dest.length) s 0,
      Nat.zero_add]
  · rfl

/-- Witness for claim C4: an 11-byte destination filled from TestRng(8)
performs exactly two draws. -/
theorem claim_C4_witness :
    1 ≤ (List.replicate 11 (0 : Nat)).length ∧
    ∃ out s', MarkerOnly.impl_fill_from_u64 false
        (MarkerOnly.count_next MarkerOnly.TestRng_next_u64) (8, 0)
        (List.replicate 11 0) =
      some (out, (s', MarkerOnly.ceilDiv8 (List.replicate 11 (0 : Nat)).length)) :=
  ⟨by decide, claim_C4_draw_count.1 Nat false MarkerOnly.TestRng_next_u64 8
    (List.replicate 11 0) (by decide)⟩

/-- Claim C5: the Hello scenario of marker_only.rs: TestRng with fixed
word 0x20216F6C6C6548 filled into a 16-byte buffer yields the 8
little-endian bytes of that word twice consecutively, on either host
byte order; those bytes are 48 65 6C 6C 6F 21 20 00. -/
theorem claim_C5_hello :
    MarkerOnly.impl_fill_from_u64 false MarkerOnly.TestRng_next_u64
        0x20216F6C6C6548 (List.replicate 16 0) =
      some (MarkerOnly.leBytes64 0x20216F6C6C6548
          ++ MarkerOnly.leBytes64 0x20216F6C6C6548, 0x20216F6C6C6548) ∧
    MarkerOnly.impl_fill_from_u64 true MarkerOnly.TestRng_next_u64
        0x20216F6C6C6548 (List.replicate 16 0) =
      some (MarkerOnly.leBytes64 0x20216F6C6C6548
          ++ MarkerOnly.leBytes64 0x20216F6C6C6548, 0x20216F6C6C6548) ∧
    MarkerOnly.leBytes64 0x20216F6C6C6548 =
      [0x48, 0x65, 0x6C, 0x6C, 0x6F, 0x21, 0x20, 0x00] := by
  refine ⟨?_, ?_, by decide⟩
  · rw [MarkerOnly.impl_fill_from_u64_spec false MarkerOnly.TestRng_next_u64
      0x20216F6C6C6548 (List.replicate 16 0) (by decide)]
    decide
  · rw [MarkerOnly.impl_fill_from_u64_spec true MarkerOnly.TestRng_next_u64
      0x20216F6C6C6548 (List.replicate 16 0) (by decide)]
    decide

/-- Claim C6: wrapping a secure generator in the AsRng bridge and calling
next_u32 in a state where try_next_u32 returns Err panics (the unwrap),
never returning a value. -/
theorem claim_C6_as_rng_panics :
    ∀ (σ : Type) (cr : SeparateExplicit.CryptoRng σ) (s : σ)
      (e : SeparateExplicit.CryptoError),
      (cr.try_next_u32 s).1 = Except.error e →
      SeparateExplicit.AsRng.next_u32 (SeparateExplicit.as_rng cr) s = none := by
  intro σ cr s e h
  rcases hres : cr.try_next_u32 s with ⟨r, s'⟩
  rw [hres] at h
  simp only at h
  subst h
  simp [SeparateExplicit.AsRng.next_u32, SeparateExplicit.as_rng, hres]

/-- Witness for claim C6: the always-failing secure generator. -/
theorem claim_C6_witness :
    (SeparateExplicit.FailCRng.try_next_u32 ()).1 =
      Except.error SeparateExplicit.CryptoError.mk ∧
    SeparateExplicit.AsRng.next_u32
      (SeparateExplicit.as_rng SeparateExplicit.FailCRng) () = none :=
  ⟨rfl, claim_C6_as_rng_panics Unit SeparateExplicit.FailCRng ()
    SeparateExplicit.CryptoError.mk rfl⟩

/-- Claim C7: wrapping a basic generator in the AsCRng bridge makes
try_next_u32 always return Ok of exactly the value and successor state
that next_u32 of the wrapped generator produces; it never returns Err. -/
theorem claim_C7_as_crng_ok :
    ∀ (σ : Type) (r : SeparateExplicit.Rng σ) (s : σ),
      (∀ e : SeparateExplicit.CryptoError,
        ((SeparateExplicit.as_crng r).try_next_u32 s).1 ≠ Except.error e) ∧
      (SeparateExplicit.as_crng r).try_next_u32 s =
        (Except.ok (r.next_u32 s).1, (r.next_u32 s).2) := by
  intro σ r s
  refine ⟨fun e h => ?_, rfl⟩
  simp [SeparateExplicit.AsCRng.try_next_u32, SeparateExplicit.as_crng] at h

/-- Claim C8: calling a capability method through the forwarding impl
that dynamic dispatch on an abstract reference resolves to gives the same
value and successor state as the statically dispatched call on the
concrete generator, for both capabilities and in particular for the test
doubles TestRng(13) and TestCRng(42) of the usage section. -/
theorem claim_C8_dispatch_agree :
    ∀ (σ : Type) (r : SeparateExplicit.Rng σ) (cr : SeparateExplicit.CryptoRng σ)
      (s : σ),
      (SeparateExplicit.mut_ref_rng r).next_u32 s = r.next_u32 s ∧
      (SeparateExplicit.mut_ref_crng cr).try_next_u32 s = cr.try_next_u32 s ∧
      (SeparateExplicit.mut_ref_rng SeparateExplicit.TestRng).next_u32 13 =
        SeparateExplicit.TestRng.next_u32 13 ∧
      (SeparateExplicit.mut_ref_crng SeparateExplicit.TestCRng).try_next_u32 42 =
        SeparateExplicit.TestCRng.try_next_u32 42 := by
  intro σ r cr s
  exact ⟨rfl, rfl, rfl, rfl⟩

/-- Claim C9: round-trip of the two derivation helpers: for a generator
whose fill is impl_fill_from_u64, impl_next_u64_from_fill returns exactly
the next_u64 value and successor state, on either host byte order: the
little-endian serialization and deserialization cancel. -/
theorem claim_C9_roundtrip :
    ∀ (σ : Type) (be : Bool) (next : σ → Nat × σ) (s : σ),
      (next s).1 < 18446744073709551616 →
      MarkerOnly.impl_next_u64_from_fill be next s =
        some ((next s).1, (next s).2) := by
  intro σ be next s h
  unfold MarkerOnly.impl_next_u64_from_fill
  rw [MarkerOnly.impl_fill_from_u64_spec be next s (List.replicate 8 0) (by decide)]
  simp only [List.length_replicate]
  have h1 : MarkerOnly.ceilDiv8 8 = 1 := rfl
  rw [h1]
  simp only [MarkerOnly.draw_words, MarkerOnly.bytes_of_words, List.append_nil]
  rw [List.take_of_length_le (Nat.le_of_eq (MarkerOnly.leBytes64_length _))]
  rw [MarkerOnly.to_le_load64_leBytes, Nat.mod_eq_of_lt h]

/-- Witness for claim C9: the constant generator TestRng(99). -/
theorem claim_C9_witness :
    (MarkerOnly.TestRng_next_u64 99).1 < 18446744073709551616 ∧
    MarkerOnly.impl_next_u64_from_fill false MarkerOnly.TestRng_next_u64 99 =
      some ((MarkerOnly.TestRng_next_u64 99).1, (MarkerOnly.TestRng_next_u64 99).2) :=
  ⟨by decide, claim_C9_roundtrip Nat false MarkerOnly.TestRng_next_u64 99 (by decide)⟩

/-- Claim C10: the default try_fill never returns Err: for every
generator it returns Ok(()) exactly when fill returns, with the same
destination contents and state as fill (a panic inside fill propagates as
a panic, not as Err). -/
theorem claim_C10_try_fill_default :
    ∀ (σ : Type) (g : MarkerOnly.Rng σ) (s : σ) (dest : List Nat),
      (∀ (e : MarkerOnly.Error) (out : List Nat × σ),
        MarkerOnly.Rng.try_fill g s dest ≠ some (Except.error e, out)) ∧
      MarkerOnly.Rng.try_fill g s dest =
        (g.fill s dest).map (fun p => (Except.ok (), p)) := by
  intro σ g s dest
  constructor
  · intro e out hne
    rcases hfill : g.fill s dest with _ | ⟨d, s'⟩ <;>
      simp [MarkerOnly.Rng.try_fill, hfill] at hne
  · rcases hfill : g.fill s dest with _ | ⟨d, s'⟩ <;>
      simp [MarkerOnly.Rng.try_fill, hfill]
